import Mathlib

/-!
Shallow embedding of `OwningList` (src/src/lib.rs), a doubly-linked list with
owning forward links (`Box`), non-owning raw back-pointers (`NonNull`), and
handle-based O(1) prepend / remove / move-to-front.

Model: the heap is an arena `List (Node T)`; an address (the model of a raw
pointer / handle) is an index into the arena.  Allocating a `Box` appends a
node at index `heap.length`; a freed box simply becomes unreachable (addresses
are never reused, which is sound because all claims only concern valid
handles).  Dereferencing a pointer is `heap[a]?`; dereferencing an address not
in the arena (Rust UB on a dangling pointer) is modelled by the `none` branch
of each lookup.
-/

namespace OwningListSpec

/-- Model of `Node<T>`: payload, owning forward link `next: Option<Box<Node>>`
and non-owning back-pointer `prev: Option<NonNull<Node>>`, both modelled as
optional addresses. -/
structure Node (T : Type) where
  value : T
  next : Option Nat
  prev : Option Nat

/-- Model of `OwningList<T>(Option<Box<Node<T>>>)` together with the arena the
nodes live in: `head` is the list's single owning link. -/
structure OwningList (T : Type) where
  heap : List (Node T)
  head : Option Nat

variable {T : Type}

/-- `OwningList::default()`: the empty list over an empty arena. -/
def emptyList : OwningList T := ⟨[], none⟩

/-- Write the `prev` field of the node at address `a` (no-op on a dangling
address, where Rust would have UB). -/
def setPrev (h : List (Node T)) (a : Nat) (p : Option Nat) : List (Node T) :=
  match h[a]? with
  | some n => h.set a ⟨n.value, n.next, p⟩
  | none => h

/-- Write the `next` field of the node at address `a`. -/
def setNext (h : List (Node T)) (a : Nat) (nx : Option Nat) : List (Node T) :=
  match h[a]? with
  | some n => h.set a ⟨n.value, nx, n.prev⟩
  | none => h

/-- Read the `next` field of the node at address `a`. -/
def getNext (h : List (Node T)) (a : Nat) : Option Nat :=
  (h[a]?).bind (·.next)

/-- Read the `prev` field of the node at address `a`. -/
def getPrev (h : List (Node T)) (a : Nat) : Option Nat :=
  (h[a]?).bind (·.prev)

/-- Read the `value` field of the node at address `a`. -/
def valueAt? (h : List (Node T)) (a : Nat) : Option T :=
  (h[a]?).map (·.value)

/-- The payload values stored at a list of addresses, in order. -/
def values (h : List (Node T)) (c : List Nat) : List T :=
  c.filterMap (valueAt? h)

/-- `OwningList::prepend`: allocate a fresh node whose `next` is the old head
and whose `prev` is absent, point the old head's `prev` (if any) at it, and
make it the new head.  Returns the new state and the handle (`NonNull`) to the
new node. -/
def prepend (s : OwningList T) (value : T) : OwningList T × Nat :=
  let list_tail := s.head
  let raw := s.heap.length
  let h1 := s.heap ++ [⟨value, list_tail, none⟩]
  match list_tail with
  | some t => (⟨setPrev h1 t (some raw), some raw⟩, raw)
  | none => (⟨h1, some raw⟩, raw)

/-- `OwningList::remove_to_owned`, statement by statement.  In the non-head
branch: `item.prev.take()`, `prev.next.take()` (whose result — the box holding
`item` — is returned), `item.next.take()`, then the splice writing
`old_next.prev` and `prev.next`.  In the head branch: `item.next.take()`,
`next.prev = None`, and `self.0.replace(next)` / `self.0.take()`, both of
which return the old head box.  A dangling `item` (Rust UB) returns `none`
with the state unchanged. -/
def remove_to_owned (s : OwningList T) (item : Nat) : OwningList T × Option Nat :=
  match s.heap[item]? with
  | none => (s, none)
  | some itemN =>
    match itemN.prev with
    | some prev_ptr =>
      let h1 := setPrev s.heap item none
      let node := getNext h1 prev_ptr
      let h2 := setNext h1 prev_ptr none
      match getNext h2 item with
      | some old_next =>
        (⟨setNext (setPrev (setNext h2 item none) old_next (some prev_ptr))
            prev_ptr (some old_next), s.head⟩, node)
      | none => (⟨setNext h2 item none, s.head⟩, node)
    | none =>
      match getNext s.heap item with
      | some next => (⟨setPrev (setNext s.heap item none) next none, some next⟩, s.head)
      | none => (⟨setNext s.heap item none, none⟩, s.head)

/-- `OwningList::remove_ptr`: dereference the handle and remove. -/
def remove_ptr (s : OwningList T) (ptr : Nat) : OwningList T × Option Nat :=
  remove_to_owned s ptr

/-- `OwningList::move_to_head`: fast-path no-op when `ptr` is the head box
(`ptr::eq`); otherwise `remove_ptr(ptr).unwrap()` (the `unwrap` panic is
modelled by `none`), reattach the box at the front (`head.next = self.0.take()`,
`list_tail.prev = Some(ptr)`), and make it the head. -/
def move_to_head (s : OwningList T) (ptr : Nat) : Option (OwningList T) :=
  if s.head = some ptr then some s
  else
    match remove_ptr s ptr with
    | (s1, some headAddr) =>
      let h1 := setNext s1.heap headAddr s1.head
      match getNext h1 headAddr with
      | some list_tail => some ⟨setPrev h1 list_tail (some ptr), some headAddr⟩
      | none => some ⟨h1, some headAddr⟩
    | (_, none) => none

/-- One call of `<ListIter as Iterator>::next`: the borrowing iterator holds
`next: &Option<Box<Node<T>>>`; if present it yields a reference to the value
and advances to the node's `next`. -/
def listIterStep (h : List (Node T)) : Option Nat → Option (T × Option Nat)
  | some a =>
    match h[a]? with
    | some n => some (n.value, n.next)
    | none => none
  | none => none

/-- One call of `<ListIntoIter as Iterator>::next`: the consuming iterator
holds `next: Option<Box<Node<T>>>`; it takes the box, yields its value by
move, and keeps the box's `next`. -/
def intoIterStep (h : List (Node T)) : Option Nat → Option (T × Option Nat)
  | some a =>
    match h[a]? with
    | some n => some (n.value, n.next)
    | none => none
  | none => none

/-- Drain the borrowing iterator, collecting the yielded values (fuel-bounded;
any fuel at least the chain length is enough). -/
def iterItems (h : List (Node T)) : Nat → Option Nat → List T
  | 0, _ => []
  | fuel + 1, st =>
    match listIterStep h st with
    | some (v, st1) => v :: iterItems h fuel st1
    | none => []

/-- Drain the consuming iterator, collecting the yielded values together with
the iterator's final `next` state. -/
def intoIterRun (h : List (Node T)) : Nat → Option Nat → List T × Option Nat
  | 0, st => ([], st)
  | fuel + 1, st =>
    match intoIterStep h st with
    | some (v, st1) =>
      let r := intoIterRun h fuel st1
      (v :: r.1, r.2)
    | none => ([], st)

/-- `list.iter()` collected to a `Vec` (the test's `to_vec`): the heap size
always bounds the number of live nodes, so it is enough fuel. -/
def iterate (s : OwningList T) : List T :=
  iterItems s.heap s.heap.length s.head

/-- `list.into_iter()` collected to a `Vec`. -/
def into_iterate (s : OwningList T) : List T :=
  (intoIterRun s.heap s.heap.length s.head).1

/-- `chainB h pr hd c` holds when, starting from owning link `hd` whose owner
has address `pr` (`none` for the list head link), the forward chain visits
exactly the addresses `c` in order, every visited node's `prev` equals the
address of its owner, and the last node's `next` is absent. -/
def chainB (h : List (Node T)) : Option Nat → Option Nat → List Nat → Bool
  | _, none, [] => true
  | pr, some a, b :: c =>
    a == b &&
      match h[a]? with
      | some n => n.prev == pr && chainB h (some a) n.next c
      | none => false
  | _, _, _ => false

/-- The data-model invariant: some duplicate-free address chain describes the
list, i.e. forward traversal from the head visits every live node exactly once
and terminates, and every back-reference resolves to the true predecessor
(absent at the head). -/
def Inv (s : OwningList T) : Prop :=
  ∃ c : List Nat, c.Nodup ∧ chainB s.heap none s.head c = true

/-- States reachable from the empty list by `prepend`, `remove_ptr` and
`move_to_head` applied to valid handles, together with the handles of the
currently live (prepended and not yet removed) nodes. -/
inductive Reaches : OwningList T → List Nat → Prop
  | empty : Reaches emptyList []
  | prepend_step (s : OwningList T) (live : List Nat) (v : T) :
      Reaches s live → Reaches (prepend s v).1 ((prepend s v).2 :: live)
  | remove_step (s : OwningList T) (live : List Nat) (a : Nat) :
      Reaches s live → a ∈ live → Reaches (remove_ptr s a).1 (live.erase a)
  | move_step (s s1 : OwningList T) (live : List Nat) (a : Nat) :
      Reaches s live → a ∈ live → move_to_head s a = some s1 → Reaches s1 live

example : chainB (T := Nat) [⟨1, none, some 1⟩, ⟨2, some 0, none⟩] none (some 1) [1, 0] = true := by
  decide

example : (iterate (T := Nat) ⟨[⟨1, none, some 1⟩, ⟨2, some 0, none⟩], some 1⟩) = [2, 1] := by
  decide

/-! ### Heap-access lemmas -/

theorem length_setPrev (h : List (Node T)) (a : Nat) (p : Option Nat) :
    (setPrev h a p).length = h.length := by
  unfold setPrev
  cases hx : h[a]? <;> simp

theorem length_setNext (h : List (Node T)) (a : Nat) (nx : Option Nat) :
    (setNext h a nx).length = h.length := by
  unfold setNext
  cases hx : h[a]? <;> simp

theorem getElem?_setPrev_ne (h : List (Node T)) (a b : Nat) (p : Option Nat) (hba : b ≠ a) :
    (setPrev h a p)[b]? = h[b]? := by
  unfold setPrev
  cases hx : h[a]? with
  | none => rfl
  | some n => exact List.getElem?_set_ne (fun hc => hba hc.symm)

theorem getElem?_setNext_ne (h : List (Node T)) (a b : Nat) (nx : Option Nat) (hba : b ≠ a) :
    (setNext h a nx)[b]? = h[b]? := by
  unfold setNext
  cases hx : h[a]? with
  | none => rfl
  | some n => exact List.getElem?_set_ne (fun hc => hba hc.symm)

theorem getElem?_setPrev_self (h : List (Node T)) (a : Nat) (p : Option Nat)
    (n : Node T) (hx : h[a]? = some n) :
    (setPrev h a p)[a]? = some ⟨n.value, n.next, p⟩ := by
  unfold setPrev
  rw [hx]
  have hlt : a < h.length := by
    have := List.getElem?_eq_some.mp hx
    exact this.1
  exact List.getElem?_set_self hlt

theorem getElem?_setNext_self (h : List (Node T)) (a : Nat) (nx : Option Nat)
    (n : Node T) (hx : h[a]? = some n) :
    (setNext h a nx)[a]? = some ⟨n.value, nx, n.prev⟩ := by
  unfold setNext
  rw [hx]
  have hlt : a < h.length := by
    have := List.getElem?_eq_some.mp hx
    exact this.1
  exact List.getElem?_set_self hlt

theorem valueAt?_setPrev (h : List (Node T)) (a b : Nat) (p : Option Nat) :
    valueAt? (setPrev h a p) b = valueAt? h b := by
  by_cases hab : b = a
  · subst hab
    cases hx : h[b]? with
    | none => simp [valueAt?, setPrev, hx]
    | some n => simp [valueAt?, getElem?_setPrev_self h b p n hx, hx]
  · simp [valueAt?, getElem?_setPrev_ne h a b p hab]

theorem valueAt?_setNext (h : List (Node T)) (a b : Nat) (nx : Option Nat) :
    valueAt? (setNext h a nx) b = valueAt? h b := by
  by_cases hab : b = a
  · subst hab
    cases hx : h[b]? with
    | none => simp [valueAt?, setNext, hx]
    | some n => simp [valueAt?, getElem?_setNext_self h b nx n hx, hx]
  · simp [valueAt?, getElem?_setNext_ne h a b nx hab]

/-! ### Chain lemmas -/

theorem chainB_nil_iff (h : List (Node T)) (pr hd : Option Nat) :
    chainB h pr hd [] = true ↔ hd = none := by
  cases hd <;> simp [chainB]

theorem chainB_cons_iff (h : List (Node T)) (pr hd : Option Nat) (b : Nat) (c : List Nat) :
    chainB h pr hd (b :: c) = true ↔
      hd = some b ∧ ∃ n, h[b]? = some n ∧ n.prev = pr ∧ chainB h (some b) n.next c = true := by
  cases hd with
  | none => simp [chainB]
  | some a =>
    cases hx : h[a]? with
    | none =>
      simp only [chainB, hx, Bool.and_eq_true, beq_iff_eq, Option.some.injEq]
      constructor
      · rintro ⟨rfl, hfalse⟩
        exact absurd hfalse (by simp)
      · rintro ⟨rfl, n, hn, -⟩
        exact absurd (hx ▸ hn) (by simp)
    | some n =>
      simp only [chainB, hx, Bool.and_eq_true, beq_iff_eq, Option.some.injEq]
      constructor
      · rintro ⟨rfl, hp, hc⟩
        exact ⟨rfl, n, hx, hp, hc⟩
      · rintro ⟨rfl, m, hm, hp, hc⟩
        rw [hx] at hm
        cases hm
        exact ⟨rfl, hp, hc⟩

theorem chainB_congr (h1 h2 : List (Node T)) (pr hd : Option Nat) (c : List Nat)
    (hsame : ∀ x ∈ c, h2[x]? = h1[x]?) :
    chainB h2 pr hd c = chainB h1 pr hd c := by
  induction c generalizing pr hd with
  | nil => cases hd <;> rfl
  | cons b c ih =>
    cases hd with
    | none => rfl
    | some a =>
      by_cases hab : a = b
      · subst hab
        have hx : h2[a]? = h1[a]? := hsame a (by simp)
        cases hy : h1[a]? with
        | none => simp [chainB, hx, hy]
        | some n =>
          have ihc := ih (some a) n.next (fun x hx1 => hsame x (by simp [hx1]))
          simp [chainB, hx, hy, ihc]
      · have hfa : (a == b) = false := by simpa using hab
        simp [chainB, hfa]

theorem chainB_mem_lt (h : List (Node T)) (pr hd : Option Nat) (c : List Nat)
    (hc : chainB h pr hd c = true) : ∀ x ∈ c, x < h.length := by
  induction c generalizing pr hd with
  | nil => intro x hx; cases hx
  | cons b c ih =>
    obtain ⟨rfl, n, hn, -, hrest⟩ := (chainB_cons_iff h pr hd b c).mp hc
    intro x hx
    rcases List.mem_cons.mp hx with rfl | hx
    · exact (List.getElem?_eq_some.mp hn).1
    · exact ih (some b) n.next hrest x hx

theorem chainB_length_le (h : List (Node T)) (pr hd : Option Nat) (c : List Nat)
    (hc : chainB h pr hd c = true) (hnd : c.Nodup) : c.length ≤ h.length := by
  have hsub : c.toFinset ⊆ Finset.range h.length := by
    intro x hx
    rw [Finset.mem_range]
    exact chainB_mem_lt h pr hd c hc x (List.mem_toFinset.mp hx)
  calc c.length = c.toFinset.card := (List.toFinset_card_of_nodup hnd).symm
    _ ≤ (Finset.range h.length).card := Finset.card_le_card hsub
    _ = h.length := Finset.card_range _

/-! ### Iterator lemmas -/

theorem intoIterRun_none (h : List (Node T)) (fuel : Nat) :
    intoIterRun h fuel none = ([], none) := by
  cases fuel <;> simp [intoIterRun, intoIterStep]

theorem intoIterRun_eq_of_chain (h : List (Node T)) (pr hd : Option Nat) (c : List Nat)
    (hc : chainB h pr hd c = true) :
    ∀ fuel, c.length ≤ fuel → intoIterRun h fuel hd = (values h c, none) := by
  induction c generalizing pr hd with
  | nil =>
    intro fuel _
    rw [(chainB_nil_iff h pr hd).mp hc]
    simp [values, intoIterRun_none]
  | cons b c ih =>
    intro fuel hfuel
    obtain ⟨rfl, n, hn, -, hrest⟩ := (chainB_cons_iff h pr hd b c).mp hc
    cases fuel with
    | zero => simp at hfuel
    | succ f =>
      have hlen : c.length ≤ f := Nat.le_of_succ_le_succ hfuel
      have hrec := ih (some b) n.next hrest f hlen
      simp [intoIterRun, intoIterStep, hn, hrec, values, valueAt?]

theorem iterItems_eq_of_chain (h : List (Node T)) (pr hd : Option Nat) (c : List Nat)
    (hc : chainB h pr hd c = true) :
    ∀ fuel, c.length ≤ fuel → iterItems h fuel hd = values h c := by
  induction c generalizing pr hd with
  | nil =>
    intro fuel _
    rw [(chainB_nil_iff h pr hd).mp hc]
    cases fuel <;> simp [values, iterItems, listIterStep]
  | cons b c ih =>
    intro fuel hfuel
    obtain ⟨rfl, n, hn, -, hrest⟩ := (chainB_cons_iff h pr hd b c).mp hc
    cases fuel with
    | zero => simp at hfuel
    | succ f =>
      have hlen : c.length ≤ f := Nat.le_of_succ_le_succ hfuel
      have hrec := ih (some b) n.next hrest f hlen
      simp [iterItems, listIterStep, hn, hrec, values, valueAt?]

theorem iterItems_eq_intoIterRun (h : List (Node T)) (fuel : Nat) (st : Option Nat) :
    iterItems h fuel st = (intoIterRun h fuel st).1 := by
  induction fuel generalizing st with
  | zero => simp [iterItems, intoIterRun]
  | succ f ih =>
    cases st with
    | none => simp [iterItems, intoIterRun, listIterStep, intoIterStep]
    | some a =>
      cases hx : h[a]? with
      | none => simp [iterItems, intoIterRun, listIterStep, intoIterStep, hx]
      | some n => simp [iterItems, intoIterRun, listIterStep, intoIterStep, hx, ih]

/-! ### Auxiliary chain and heap facts -/

theorem chainB_none_eq_nil (h : List (Node T)) (pr : Option Nat) (c : List Nat)
    (hc : chainB h pr none c = true) : c = [] := by
  cases c with
  | nil => rfl
  | cons b c => simp [chainB] at hc

theorem getElem?_append_single (h : List (Node T)) (m : Node T) (y : Nat) :
    (h ++ [m])[y]? = if y = h.length then some m else h[y]? := by
  rcases Nat.lt_trichotomy y h.length with hlt | heq | hgt
  · rw [List.getElem?_append_left hlt, if_neg (Nat.ne_of_lt hlt)]
  · subst heq
    simp
  · rw [if_neg (Nat.ne_of_gt hgt)]
    rw [List.getElem?_eq_none_iff.mpr (by simpa using hgt),
      List.getElem?_eq_none_iff.mpr (Nat.le_of_lt hgt)]

theorem values_congr (h1 h2 : List (Node T)) (c : List Nat)
    (hsame : ∀ y ∈ c, valueAt? h2 y = valueAt? h1 y) : values h2 c = values h1 c := by
  induction c with
  | nil => rfl
  | cons b c ih =>
    have hb := hsame b (by simp)
    have hc := ih (fun y hy => hsame y (by simp [hy]))
    simp [values, List.filterMap_cons, hb] at hc ⊢
    cases hx : valueAt? h1 b <;> simp [hx, hc]

/-- Removal never changes any payload value in the arena. -/
theorem remove_to_owned_valueAt (s : OwningList T) (item y : Nat) :
    valueAt? (remove_to_owned s item).1.heap y = valueAt? s.heap y := by
  unfold remove_to_owned
  cases hx : s.heap[item]? with
  | none => rfl
  | some itemN =>
    cases hp : itemN.prev with
    | some prev_ptr =>
      cases hn : getNext (setNext (setPrev s.heap item none) prev_ptr none) item with
      | some old_next => simp [hp, hn, valueAt?_setPrev, valueAt?_setNext]
      | none => simp [hp, hn, valueAt?_setPrev, valueAt?_setNext]
    | none =>
      cases hn : getNext s.heap item with
      | some next => simp [hp, hn, valueAt?_setPrev, valueAt?_setNext]
      | none => simp [hp, hn, valueAt?_setPrev, valueAt?_setNext]

/-- Removal never changes the arena's size. -/
theorem remove_to_owned_length (s : OwningList T) (item : Nat) :
    (remove_to_owned s item).1.heap.length = s.heap.length := by
  unfold remove_to_owned
  cases hx : s.heap[item]? with
  | none => rfl
  | some itemN =>
    cases hp : itemN.prev with
    | some prev_ptr =>
      cases hn : getNext (setNext (setPrev s.heap item none) prev_ptr none) item with
      | some old_next => simp [hp, hn, length_setPrev, length_setNext]
      | none => simp [hp, hn, length_setPrev, length_setNext]
    | none =>
      cases hn : getNext s.heap item with
      | some next => simp [hp, hn, length_setPrev, length_setNext]
      | none => simp [hp, hn, length_setPrev, length_setNext]

/-! ### Prepend specification -/

/-- Full behaviour of `prepend` on a well-formed list: the returned handle is
the fresh address, the fresh node carries the value with `next` the old head
and `prev` absent, the old head's back-reference now points at the fresh node,
the fresh node heads the extended chain, and no other payload moves. -/
theorem prepend_spec (h : List (Node T)) (hd : Option Nat) (c : List Nat) (v : T)
    (hnd : c.Nodup) (hc : chainB h none hd c = true) :
    (prepend ⟨h, hd⟩ v).2 = h.length
    ∧ (prepend ⟨h, hd⟩ v).1.head = some h.length
    ∧ (prepend ⟨h, hd⟩ v).1.heap[h.length]? = some ⟨v, hd, none⟩
    ∧ (∀ t, hd = some t → getPrev (prepend ⟨h, hd⟩ v).1.heap t = some h.length)
    ∧ chainB (prepend ⟨h, hd⟩ v).1.heap none (some h.length) (h.length :: c) = true
    ∧ (h.length :: c).Nodup
    ∧ (∀ y, y ≠ h.length → valueAt? (prepend ⟨h, hd⟩ v).1.heap y = valueAt? h y)
    ∧ valueAt? (prepend ⟨h, hd⟩ v).1.heap h.length = some v
    ∧ (prepend ⟨h, hd⟩ v).1.heap.length = h.length + 1 := by
  have hmem := chainB_mem_lt h none hd c hc
  cases hd with
  | none =>
    have hcnil : c = [] := chainB_none_eq_nil h none c hc
    subst hcnil
    simp only [prepend]
    refine ⟨trivial, trivial, by simp, by simp, ?_, by simp, ?_, by simp [valueAt?], by simp⟩
    · rw [chainB_cons_iff]
      exact ⟨rfl, ⟨v, none, none⟩, by simp, rfl, by simp [chainB]⟩
    · intro y hy
      simp [valueAt?, getElem?_append_single, hy]
  | some t =>
    cases c with
    | nil =>
      rw [chainB_nil_iff] at hc
      exact absurd hc (by simp)
    | cons b c1 =>
      obtain ⟨hb, tn, htn, htprev, hrest⟩ := (chainB_cons_iff h none (some t) b c1).mp hc
      have hbt : t = b := by injection hb
      subst hbt
      have htl : t < h.length := hmem t (by simp)
      have h1t : (h ++ [(⟨v, some t, none⟩ : Node T)])[t]? = some tn := by
        rw [List.getElem?_append_left htl]
        exact htn
      have hgt : (setPrev (h ++ [(⟨v, some t, none⟩ : Node T)]) t (some h.length))[t]?
          = some ⟨tn.value, tn.next, some h.length⟩ :=
        getElem?_setPrev_self _ t (some h.length) tn h1t
      have hLt : h.length ≠ t := (Nat.ne_of_lt htl).symm
      have hgL : (setPrev (h ++ [(⟨v, some t, none⟩ : Node T)]) t (some h.length))[h.length]?
          = some ⟨v, some t, none⟩ := by
        rw [getElem?_setPrev_ne _ t h.length (some h.length) hLt]
        simp
      have hout : ∀ x ∈ c1,
          (setPrev (h ++ [(⟨v, some t, none⟩ : Node T)]) t (some h.length))[x]? = h[x]? := by
        intro x hx
        have hxt : x ≠ t := by
          intro hcx
          subst hcx
          exact (List.nodup_cons.mp hnd).1 hx
        have hxl : x < h.length := hmem x (by simp [hx])
        rw [getElem?_setPrev_ne _ t x (some h.length) hxt]
        exact List.getElem?_append_left hxl
      simp only [prepend]
      refine ⟨trivial, trivial, hgL, ?_, ?_, ?_, ?_, ?_, by rw [length_setPrev]; simp⟩
      · intro t0 ht0
        have : t = t0 := by injection ht0
        subst this
        simp [getPrev, hgt]
      · rw [chainB_cons_iff]
        refine ⟨rfl, ⟨v, some t, none⟩, hgL, rfl, ?_⟩
        rw [chainB_cons_iff]
        refine ⟨rfl, ⟨tn.value, tn.next, some h.length⟩, hgt, rfl, ?_⟩
        rw [chainB_congr _ _ _ _ _ hout]
        exact hrest
      · rw [List.nodup_cons]
        refine ⟨?_, hnd⟩
        intro hmemL
        exact absurd (hmem _ hmemL) (by simp)
      · intro y hy
        rw [valueAt?_setPrev]
        simp [valueAt?, getElem?_append_single, hy]
      · rw [valueAt?_setPrev]
        simp [valueAt?]

/-! ### Removal specification -/

/-- Removing the head node: the old head box is returned, the successor (if
any) becomes the new head with its back-reference cleared, the removed node is
fully detached, and nothing outside the chain is touched. -/
theorem remove_head (h : List (Node T)) (hd : Option Nat) (a : Nat) (c2 : List Nat)
    (hnd : (a :: c2).Nodup) (hc : chainB h none hd (a :: c2) = true) :
    (remove_to_owned ⟨h, hd⟩ a).2 = some a
    ∧ (remove_to_owned ⟨h, hd⟩ a).1.head = c2.head?
    ∧ chainB (remove_to_owned ⟨h, hd⟩ a).1.heap none c2.head? c2 = true
    ∧ (∀ n0, h[a]? = some n0 →
        (remove_to_owned ⟨h, hd⟩ a).1.heap[a]? = some ⟨n0.value, none, none⟩)
    ∧ (∀ y, y ∉ a :: c2 → (remove_to_owned ⟨h, hd⟩ a).1.heap[y]? = h[y]?) := by
  obtain ⟨hhd, n, hn, hprev, hrest⟩ := (chainB_cons_iff h none hd a c2).mp hc
  subst hhd
  have hga : getNext h a = n.next := by simp [getNext, hn]
  have hdetA : (setNext h a none)[a]? = some ⟨n.value, none, none⟩ := by
    rw [getElem?_setNext_self h a none n hn, hprev]
  cases c2 with
  | nil =>
    have hnx : n.next = none := by
      have := chainB_nil_iff h (some a) n.next
      exact this.mp hrest
    simp only [remove_to_owned, hn, hprev, hga, hnx]
    refine ⟨trivial, rfl, by simp [chainB], ?_, ?_⟩
    · intro n0 hn0
      cases hn0
      exact hdetA
    · intro y hy
      have hya : y ≠ a := by simp at hy; exact hy
      exact getElem?_setNext_ne h a y none hya
  | cons b c2x =>
    obtain ⟨hnb, bn, hbn, hbp, hrest2⟩ := (chainB_cons_iff h (some a) n.next b c2x).mp hrest
    have hab : a ≠ b := by
      intro hcx
      subst hcx
      exact (List.nodup_cons.mp hnd).1 (by simp)
    have hba : b ≠ a := fun hcx => hab hcx.symm
    simp only [remove_to_owned, hn, hprev, hga, hnb]
    have hAb : (setNext h a none)[b]? = some bn := by
      rw [getElem?_setNext_ne h a b none hba]
      exact hbn
    have hBb : (setPrev (setNext h a none) b none)[b]? = some ⟨bn.value, bn.next, none⟩ :=
      getElem?_setPrev_self _ b none bn hAb
    have hBa : (setPrev (setNext h a none) b none)[a]? = some ⟨n.value, none, none⟩ := by
      rw [getElem?_setPrev_ne _ b a none hab]
      exact hdetA
    refine ⟨trivial, rfl, ?_, ?_, ?_⟩
    · rw [chainB_cons_iff]
      refine ⟨rfl, ⟨bn.value, bn.next, none⟩, hBb, rfl, ?_⟩
      have hout : ∀ x ∈ c2x, (setPrev (setNext h a none) b none)[x]? = h[x]? := by
        intro x hx
        have hnd2 := List.nodup_cons.mp hnd
        have hnd3 := List.nodup_cons.mp hnd2.2
        have hxb : x ≠ b := fun hcx => hnd3.1 (hcx ▸ hx)
        have hxa : x ≠ a := fun hcx => hnd2.1 (by simp [hcx ▸ hx])
        rw [getElem?_setPrev_ne _ b x none hxb, getElem?_setNext_ne h a x none hxa]
      rw [chainB_congr _ _ _ _ _ hout]
      exact hrest2
    · intro n0 hn0
      cases hn0
      exact hBa
    · intro y hy
      simp only [List.mem_cons, not_or] at hy
      rw [getElem?_setPrev_ne _ b y none hy.2.1, getElem?_setNext_ne h a y none hy.1]

/-- Removing a node with a predecessor: the node box taken from the
predecessor's forward link is returned, the predecessor's forward link is
retargeted at the former successor, the successor's back-reference (if any) at
the predecessor, the head link and all addresses outside the chain are
untouched, and the removed node is fully detached.  Stated for an arbitrary
chain context `pr`/`hd` so that the prefix can be peeled off by induction, and
for an arbitrary stored head `HD` because this branch never consults it. -/
theorem remove_interior (h : List (Node T)) (a : Nat) (c2 : List Nat) (HD : Option Nat) :
    ∀ (c1 : List Nat) (pr hd : Option Nat), c1 ≠ [] →
      (c1 ++ a :: c2).Nodup → chainB h pr hd (c1 ++ a :: c2) = true →
      (remove_to_owned ⟨h, HD⟩ a).2 = some a
      ∧ (remove_to_owned ⟨h, HD⟩ a).1.head = HD
      ∧ chainB (remove_to_owned ⟨h, HD⟩ a).1.heap pr hd (c1 ++ c2) = true
      ∧ (∀ n0, h[a]? = some n0 →
          (remove_to_owned ⟨h, HD⟩ a).1.heap[a]? = some ⟨n0.value, none, none⟩)
      ∧ (∀ y, y ∉ c1 ++ a :: c2 → (remove_to_owned ⟨h, HD⟩ a).1.heap[y]? = h[y]?) := by
  intro c1
  induction c1 with
  | nil => intro pr hd hne; exact absurd rfl hne
  | cons x xs ih =>
    intro pr hd hne hnd hc
    cases hxs : xs with
    | cons x2 xs2 =>
      -- `a` sits strictly inside the tail: peel `x` off the chain, remove in
      -- the tail, and reattach `x`, whose node is untouched by the removal.
      subst hxs
      obtain ⟨hhd, xn, hxn, hxp, hrest⟩ :=
        (chainB_cons_iff h pr hd x ((x2 :: xs2) ++ a :: c2)).mp hc
      have hnd1 : x ∉ (x2 :: xs2) ++ a :: c2 ∧ ((x2 :: xs2) ++ a :: c2).Nodup :=
        List.nodup_cons.mp (by rw [List.cons_append] at hnd; exact hnd)
      obtain ⟨hret, hhead, hchain, hdet, hframe⟩ :=
        ih (some x) xn.next (by simp) hnd1.2 hrest
      refine ⟨hret, hhead, ?_, hdet, ?_⟩
      · rw [List.cons_append, chainB_cons_iff]
        refine ⟨hhd, xn, ?_, hxp, hchain⟩
        rw [hframe x hnd1.1]
        exact hxn
      · intro y hy
        refine hframe y ?_
        intro hy2
        rw [List.cons_append] at hy
        exact hy (List.mem_cons_of_mem x hy2)
    | nil =>
      -- `a` is the immediate successor of the single prefix node `x`.
      subst hxs
      obtain ⟨hhd, pn, hpn, hpp, hrest⟩ := (chainB_cons_iff h pr hd x (a :: c2)).mp hc
      obtain ⟨hpnx, n, hn, hnp, hrest2⟩ := (chainB_cons_iff h (some x) pn.next a c2).mp hrest
      have hnd1 : x ∉ a :: c2 ∧ (a :: c2).Nodup :=
        List.nodup_cons.mp (by rw [List.cons_append] at hnd; simpa using hnd)
      have hnd2 := List.nodup_cons.mp hnd1.2
      have hxa : x ≠ a := fun hcx => hnd1.1 (by simp [hcx])
      have hax : a ≠ x := fun hcx => hxa hcx.symm
      have h1a : (setPrev h a none)[a]? = some ⟨n.value, n.next, none⟩ :=
        getElem?_setPrev_self h a none n hn
      have h1x : (setPrev h a none)[x]? = some pn := by
        rw [getElem?_setPrev_ne h a x none hxa]
        exact hpn
      have hnode : getNext (setPrev h a none) x = some a := by
        simp [getNext, h1x, hpnx]
      have h2a : (setNext (setPrev h a none) x none)[a]? = some ⟨n.value, n.next, none⟩ := by
        rw [getElem?_setNext_ne _ x a none hax]
        exact h1a
      have h2x : (setNext (setPrev h a none) x none)[x]? = some ⟨pn.value, none, pn.prev⟩ :=
        getElem?_setNext_self _ x none pn h1x
      have hg2 : getNext (setNext (setPrev h a none) x none) a = n.next := by
        simp [getNext, h2a]
      have h3a : (setNext (setNext (setPrev h a none) x none) a none)[a]?
          = some ⟨n.value, none, none⟩ := by
        have := getElem?_setNext_self _ a none ⟨n.value, n.next, none⟩ h2a
        simpa using this
      have h3x : (setNext (setNext (setPrev h a none) x none) a none)[x]?
          = some ⟨pn.value, none, pn.prev⟩ := by
        rw [getElem?_setNext_ne _ a x none hxa]
        exact h2x
      cases c2 with
      | nil =>
        have hnn : n.next = none := (chainB_nil_iff h (some a) n.next).mp hrest2
        simp only [remove_to_owned, hn, hnp, hnode, hg2, hnn]
        refine ⟨trivial, trivial, ?_, ?_, ?_⟩
        · simp only [List.cons_append, List.nil_append]
          rw [chainB_cons_iff]
          refine ⟨hhd, ⟨pn.value, none, pn.prev⟩, h3x, hpp, by simp [chainB]⟩
        · intro n0 hn0
          cases hn0
          exact h3a
        · intro y hy
          simp only [List.cons_append, List.nil_append, List.mem_cons,
            List.not_mem_nil, or_false, not_or] at hy
          rw [getElem?_setNext_ne _ a y none hy.2,
            getElem?_setNext_ne _ x y none hy.1,
            getElem?_setPrev_ne h a y none hy.2]
      | cons b c2x =>
        obtain ⟨hnb, bn, hbn, hbp, hrest3⟩ := (chainB_cons_iff h (some a) n.next b c2x).mp hrest2
        have hxb : x ≠ b := fun hcx => hnd1.1 (by simp [hcx])
        have hbx : b ≠ x := fun hcx => hxb hcx.symm
        have hab : a ≠ b := fun hcx => hnd2.1 (by simp [hcx])
        have hba : b ≠ a := fun hcx => hab hcx.symm
        have h3b : (setNext (setNext (setPrev h a none) x none) a none)[b]? = some bn := by
          rw [getElem?_setNext_ne _ a b none hba,
            getElem?_setNext_ne _ x b none hbx,
            getElem?_setPrev_ne h a b none hba]
          exact hbn
        have h4b : (setPrev (setNext (setNext (setPrev h a none) x none) a none) b
            (some x))[b]? = some ⟨bn.value, bn.next, some x⟩ :=
          getElem?_setPrev_self _ b (some x) bn h3b
        have h4x : (setPrev (setNext (setNext (setPrev h a none) x none) a none) b
            (some x))[x]? = some ⟨pn.value, none, pn.prev⟩ := by
          rw [getElem?_setPrev_ne _ b x (some x) hxb]
          exact h3x
        have h4a : (setPrev (setNext (setNext (setPrev h a none) x none) a none) b
            (some x))[a]? = some ⟨n.value, none, none⟩ := by
          rw [getElem?_setPrev_ne _ b a (some x) hab]
          exact h3a
        have h5x : (setNext (setPrev (setNext (setNext (setPrev h a none) x none) a none) b
            (some x)) x (some b))[x]? = some ⟨pn.value, some b, pn.prev⟩ := by
          have := getElem?_setNext_self _ x (some b) ⟨pn.value, none, pn.prev⟩ h4x
          simpa using this
        have h5b : (setNext (setPrev (setNext (setNext (setPrev h a none) x none) a none) b
            (some x)) x (some b))[b]? = some ⟨bn.value, bn.next, some x⟩ := by
          rw [getElem?_setNext_ne _ x b (some b) hbx]
          exact h4b
        have h5a : (setNext (setPrev (setNext (setNext (setPrev h a none) x none) a none) b
            (some x)) x (some b))[a]? = some ⟨n.value, none, none⟩ := by
          rw [getElem?_setNext_ne _ x a (some b) hax]
          exact h4a
        simp only [remove_to_owned, hn, hnp, hnode, hg2, hnb]
        refine ⟨trivial, trivial, ?_, ?_, ?_⟩
        · simp only [List.cons_append, List.nil_append]
          rw [chainB_cons_iff]
          refine ⟨hhd, ⟨pn.value, some b, pn.prev⟩, h5x, hpp, ?_⟩
          rw [chainB_cons_iff]
          refine ⟨rfl, ⟨bn.value, bn.next, some x⟩, h5b, rfl, ?_⟩
          have hout : ∀ z ∈ c2x,
              (setNext (setPrev (setNext (setNext (setPrev h a none) x none) a none) b
                (some x)) x (some b))[z]? = h[z]? := by
            intro z hz
            have hza : z ≠ a := fun hcx => hnd2.1 (by simp [hcx ▸ hz])
            have hzb : z ≠ b := fun hcx => (List.nodup_cons.mp hnd2.2).1 (hcx ▸ hz)
            have hzx : z ≠ x := fun hcx => hnd1.1 (by simp [hcx ▸ hz])
            rw [getElem?_setNext_ne _ x z (some b) hzx,
              getElem?_setPrev_ne _ b z (some x) hzb,
              getElem?_setNext_ne _ a z none hza,
              getElem?_setNext_ne _ x z none hzx,
              getElem?_setPrev_ne h a z none hza]
          rw [chainB_congr _ _ _ _ _ hout]
          exact hrest3
        · intro n0 hn0
          cases hn0
          exact h5a
        · intro y hy
          simp only [List.cons_append, List.nil_append, List.mem_cons, not_or] at hy
          obtain ⟨hyx, hya, hyb, -⟩ := hy
          rw [getElem?_setNext_ne _ x y (some b) hyx,
            getElem?_setPrev_ne _ b y (some x) hyb,
            getElem?_setNext_ne _ a y none hya,
            getElem?_setNext_ne _ x y none hyx,
            getElem?_setPrev_ne h a y none hya]

/-- Full behaviour of `remove_ptr` on a valid handle `a` with chain context
`c1 ++ a :: c2`: the box holding `a` is returned, the chain contracts to
`c1 ++ c2` (rooted at the successor when `a` was the head, at the unchanged
head otherwise), the removed node is fully detached, and addresses outside the
chain are untouched. -/
theorem remove_spec (h : List (Node T)) (hd : Option Nat) (c1 : List Nat) (a : Nat)
    (c2 : List Nat) (hnd : (c1 ++ a :: c2).Nodup)
    (hc : chainB h none hd (c1 ++ a :: c2) = true) :
    (remove_ptr ⟨h, hd⟩ a).2 = some a
    ∧ chainB (remove_ptr ⟨h, hd⟩ a).1.heap none (remove_ptr ⟨h, hd⟩ a).1.head
        (c1 ++ c2) = true
    ∧ (c1 = [] → (remove_ptr ⟨h, hd⟩ a).1.head = c2.head?)
    ∧ (c1 ≠ [] → (remove_ptr ⟨h, hd⟩ a).1.head = hd)
    ∧ (∀ n0, h[a]? = some n0 →
        (remove_ptr ⟨h, hd⟩ a).1.heap[a]? = some ⟨n0.value, none, none⟩)
    ∧ (∀ y, y ∉ c1 ++ a :: c2 → (remove_ptr ⟨h, hd⟩ a).1.heap[y]? = h[y]?) := by
  simp only [remove_ptr]
  cases c1 with
  | nil =>
    obtain ⟨h1, h2, h3, h4, h5⟩ := remove_head h hd a c2 (by simpa using hnd) (by simpa using hc)
    refine ⟨h1, ?_, fun _ => h2, fun hne => absurd rfl hne, h4, by simpa using h5⟩
    rw [h2]
    simpa using h3
  | cons x xs =>
    obtain ⟨h1, h2, h3, h4, h5⟩ :=
      remove_interior h a c2 hd (x :: xs) none hd (by simp) hnd hc
    refine ⟨h1, ?_, fun hx => absurd hx (by simp), fun _ => h2, h4, h5⟩
    rw [h2]
    exact h3

/-- Full behaviour of `move_to_head` on a valid handle `a` with chain context
`c1 ++ a :: c2`: it succeeds (the `unwrap` cannot panic), `a` becomes the
head, the chain becomes `a :: c1 ++ c2`, and no payload value moves. -/
theorem move_spec (h : List (Node T)) (hd : Option Nat) (c1 : List Nat) (a : Nat)
    (c2 : List Nat) (hnd : (c1 ++ a :: c2).Nodup)
    (hc : chainB h none hd (c1 ++ a :: c2) = true) :
    ∃ s1, move_to_head ⟨h, hd⟩ a = some s1
      ∧ s1.head = some a
      ∧ chainB s1.heap none (some a) (a :: (c1 ++ c2)) = true
      ∧ (a :: (c1 ++ c2)).Nodup
      ∧ (∀ y, valueAt? s1.heap y = valueAt? h y)
      ∧ s1.heap.length = h.length := by
  have hndm : (a :: (c1 ++ c2)).Nodup := List.nodup_middle.mp hnd
  cases c1 with
  | nil =>
    obtain ⟨hhd, n, hn, hprev, hrest⟩ :=
      (chainB_cons_iff h none hd a c2).mp (by simpa using hc)
    subst hhd
    refine ⟨⟨h, some a⟩, by simp [move_to_head], rfl, ?_, by simpa using hndm,
      fun y => rfl, rfl⟩
    rw [chainB_cons_iff]
    exact ⟨rfl, n, hn, hprev, by simpa using hrest⟩
  | cons x xs =>
    obtain ⟨hret, hchain, -, hhd2, hdet, -⟩ := remove_spec h hd (x :: xs) a c2 hnd hc
    obtain ⟨hhd, xn, hxn, -, -⟩ :=
      (chainB_cons_iff h none hd x (xs ++ a :: c2)).mp (by simpa using hc)
    have hnd1 : x ∉ (xs ++ a :: c2) ∧ (xs ++ a :: c2).Nodup :=
      List.nodup_cons.mp (by rw [List.cons_append] at hnd; exact hnd)
    have hxa : x ≠ a := fun hcx => hnd1.1 (by simp [hcx])
    have hax : a ≠ x := fun hcx => hxa hcx.symm
    have hvals : ∀ y, valueAt? (remove_ptr ⟨h, hd⟩ a).1.heap y = valueAt? h y :=
      fun y => remove_to_owned_valueAt ⟨h, hd⟩ a y
    have hlen : (remove_ptr ⟨h, hd⟩ a).1.heap.length = h.length :=
      remove_to_owned_length ⟨h, hd⟩ a
    -- the handle denotes a real node
    have hlt : a < h.length := chainB_mem_lt h none hd _ hc a (by simp)
    have hn : h[a]? = some h[a] := List.getElem?_eq_getElem hlt
    have hdetA := hdet h[a] hn
    cases hrem : remove_ptr ⟨h, hd⟩ a with
    | mk s1 ret =>
      obtain ⟨s1h, s1hd⟩ := s1
      rw [hrem] at hret hchain hhd2 hdetA
      simp only at hret hchain hhd2 hdetA
      subst hret
      rw [hrem] at hvals hlen
      simp only at hvals hlen
      have hhead1 : s1hd = hd := hhd2 (by simp)
      subst hhead1
      subst hhd
      have hcond : ¬((⟨h, some x⟩ : OwningList T).head = some a) := by
        simp only [Option.some.injEq]
        exact fun hcx => hxa hcx
      -- the chain of the contracted list, rooted at the untouched head
      obtain ⟨-, xn1, hxn1, hxp1, hrest1⟩ :=
        (chainB_cons_iff s1h none (some x) x (xs ++ c2)).mp (by simpa using hchain)
      have h1a : (setNext s1h a (some x))[a]? = some ⟨(h[a]).value, some x, none⟩ :=
        getElem?_setNext_self _ a (some x) ⟨(h[a]).value, none, none⟩ hdetA
      have hg1x : getNext (setNext s1h a (some x)) a = some x := by
        simp [getNext, h1a]
      have h1x : (setNext s1h a (some x))[x]? = some xn1 := by
        rw [getElem?_setNext_ne _ a x (some x) hxa]
        exact hxn1
      have h2x : (setPrev (setNext s1h a (some x)) x (some a))[x]?
          = some ⟨xn1.value, xn1.next, some a⟩ :=
        getElem?_setPrev_self _ x (some a) xn1 h1x
      have h2a : (setPrev (setNext s1h a (some x)) x (some a))[a]?
          = some ⟨(h[a]).value, some x, none⟩ := by
        rw [getElem?_setPrev_ne _ x a (some a) hax]
        exact h1a
      refine ⟨⟨setPrev (setNext s1h a (some x)) x (some a), some a⟩, ?_, rfl, ?_, hndm,
        ?_, ?_⟩
      · rw [move_to_head, if_neg hcond]
        simp only [hrem, hg1x]
      · rw [chainB_cons_iff]
        refine ⟨rfl, ⟨(h[a]).value, some x, none⟩, h2a, rfl, ?_⟩
        rw [List.cons_append, chainB_cons_iff]
        refine ⟨rfl, ⟨xn1.value, xn1.next, some a⟩, h2x, rfl, ?_⟩
        have hout : ∀ z ∈ xs ++ c2,
            (setPrev (setNext s1h a (some x)) x (some a))[z]? = s1h[z]? := by
          intro z hz
          have hndm2 := List.nodup_cons.mp hndm
          have hndm2b : (x :: (xs ++ c2)).Nodup := hndm2.2
          have hndm3 := List.nodup_cons.mp hndm2b
          have hzx : z ≠ x := fun hcx => hndm3.1 (hcx ▸ hz)
          have hza : z ≠ a := fun hcx => hndm2.1 (List.mem_cons_of_mem x (hcx ▸ hz))
          rw [getElem?_setPrev_ne _ x z (some a) hzx,
            getElem?_setNext_ne _ a z (some x) hza]
        rw [chainB_congr _ _ _ _ _ hout]
        exact hrest1
      · intro y
        rw [valueAt?_setPrev, valueAt?_setNext]
        exact hvals y
      · rw [length_setPrev, length_setNext]
        exact hlen

/-! ### Neighbour extraction and the iterate bridge -/

theorem chainB_head_eq (h : List (Node T)) (pr hd : Option Nat) (l : List Nat)
    (hc : chainB h pr hd l = true) : hd = l.head? := by
  cases l with
  | nil => simpa using (chainB_nil_iff h pr hd).mp hc
  | cons b l => exact ((chainB_cons_iff h pr hd b l).mp hc).1

theorem chain_last_next (h : List (Node T)) (l2 : List Nat) :
    ∀ (l1 : List Nat) (pr hd : Option Nat), chainB h pr hd (l1 ++ l2) = true →
      ∀ p, l1.getLast? = some p → getNext h p = l2.head? := by
  intro l1
  induction l1 with
  | nil => intro pr hd _ p hp; simp at hp
  | cons x xs ih =>
    intro pr hd hc p hp
    obtain ⟨-, n, hn, -, hrest⟩ :=
      (chainB_cons_iff h pr hd x (xs ++ l2)).mp (by simpa using hc)
    cases hxs : xs with
    | nil =>
      subst hxs
      have hpx : x = p := by simpa using hp
      subst hpx
      have hnext : getNext h x = n.next := by simp [getNext, hn]
      have hhd2 : n.next = l2.head? :=
        chainB_head_eq h (some x) n.next l2 (by simpa using hrest)
      rw [hnext, hhd2]
    | cons x2 xs2 =>
      subst hxs
      rw [List.getLast?_cons_cons] at hp
      exact ih (some x) n.next hrest p hp

theorem chain_head_prev (h : List (Node T)) (l2 : List Nat) :
    ∀ (l1 : List Nat) (pr hd : Option Nat), chainB h pr hd (l1 ++ l2) = true →
      ∀ b, l2.head? = some b → getPrev h b = (l1.getLast?).elim pr some := by
  intro l1
  induction l1 with
  | nil =>
    intro pr hd hc b hb
    cases l2 with
    | nil => simp at hb
    | cons b2 l2x =>
      obtain ⟨-, n, hn, hp, -⟩ := (chainB_cons_iff h pr hd b2 l2x).mp (by simpa using hc)
      have hbb : b2 = b := by simpa using hb
      subst hbb
      simp [getPrev, hn, hp]
  | cons x xs ih =>
    intro pr hd hc b hb
    obtain ⟨-, n, hn, -, hrest⟩ :=
      (chainB_cons_iff h pr hd x (xs ++ l2)).mp (by simpa using hc)
    have hres := ih (some x) n.next hrest b hb
    cases hxs : xs with
    | nil =>
      subst hxs
      simpa using hres
    | cons x2 xs2 =>
      subst hxs
      rw [List.getLast?_cons_cons]
      cases hq : (x2 :: xs2).getLast? with
      | none => exact absurd hq (by simp [List.getLast?_eq_none_iff])
      | some q => rw [hq] at hres; exact hres

/-- On a well-formed list, borrowing iteration returns exactly the chain's
values head to tail. -/
theorem iterate_eq_values (s : OwningList T) (c : List Nat) (hnd : c.Nodup)
    (hc : chainB s.heap none s.head c = true) : iterate s = values s.heap c :=
  iterItems_eq_of_chain s.heap none s.head c hc s.heap.length
    (chainB_length_le s.heap none s.head c hc hnd)

/-- On a well-formed list, consuming iteration returns exactly the chain's
values head to tail, ending with no remaining node. -/
theorem intoIterRun_full (s : OwningList T) (c : List Nat) (hnd : c.Nodup)
    (hc : chainB s.heap none s.head c = true) :
    intoIterRun s.heap s.heap.length s.head = (values s.heap c, none) :=
  intoIterRun_eq_of_chain s.heap none s.head c hc s.heap.length
    (chainB_length_le s.heap none s.head c hc hnd)

theorem values_cons_of_some (h : List (Node T)) (a : Nat) (c : List Nat) (v : T)
    (hv : valueAt? h a = some v) : values h (a :: c) = v :: values h c := by
  simp [values, List.filterMap_cons, hv]

/-- The list `[3, 2, 1]` built by prepending 1, 2, 3 to the empty list; its
chain is `[2, 1, 0]`.  Used as the concrete instance for witnesses. -/
def sampleList3 : OwningList Nat :=
  (prepend (prepend (prepend (emptyList (T := Nat)) 1).1 2).1 3).1

/-! ### Claim theorems -/

/-- C1: after any sequence of `prepend` / `remove_ptr` / `move_to_head`
operations performed with valid handles (states in `Reaches`, paired with the
handles of the live nodes), the data-model invariants hold: some duplicate-free
address chain `c` — a permutation of the live handles, so traversal visits
every live node exactly once — describes the list.  `chainB` asserts that
forward traversal from the head follows `c` and terminates, and that every
node's back-reference resolves to the node whose forward link points to it,
the head's being absent; `iterate` returns exactly the values along `c`. -/
theorem claim1_invariants_reachable (s : OwningList T) (live : List Nat)
    (hr : Reaches s live) :
    ∃ c : List Nat, c.Nodup ∧ chainB s.heap none s.head c = true ∧ c.Perm live
      ∧ iterate s = values s.heap c := by
  induction hr with
  | empty =>
    exact ⟨[], by simp, by simp [emptyList, chainB], by simp,
      by simp [iterate, emptyList, iterItems, values]⟩
  | prepend_step s live v hr ih =>
    obtain ⟨c, hnd, hc, hperm, -⟩ := ih
    obtain ⟨hret, hhead, -, -, hchain, hnd2, -, -, -⟩ := prepend_spec s.heap s.head c v hnd hc
    refine ⟨s.heap.length :: c, hnd2, ?_, ?_, ?_⟩
    · rw [hhead]
      exact hchain
    · rw [hret]
      exact hperm.cons s.heap.length
    · refine iterate_eq_values _ _ hnd2 ?_
      rw [hhead]
      exact hchain
  | remove_step s live a hr ha ih =>
    obtain ⟨c, hnd, hc, hperm, -⟩ := ih
    obtain ⟨c1, c2, rfl⟩ := List.append_of_mem (hperm.mem_iff.mpr ha)
    obtain ⟨-, hchain, -, -, -, -⟩ := remove_spec s.heap s.head c1 a c2 hnd hc
    have hndm := List.nodup_cons.mp (List.nodup_middle.mp hnd)
    have hac1 : a ∉ c1 := fun hx => hndm.1 (List.mem_append_left c2 hx)
    have hperm2 : (c1 ++ c2).Perm (live.erase a) := by
      have herase := hperm.erase a
      rw [List.erase_append_right _ hac1, List.erase_cons_head] at herase
      exact herase
    exact ⟨c1 ++ c2, hndm.2, hchain, hperm2,
      iterate_eq_values _ _ hndm.2 hchain⟩
  | move_step s s1 live a hr ha hmv ih =>
    obtain ⟨c, hnd, hc, hperm, -⟩ := ih
    obtain ⟨c1, c2, rfl⟩ := List.append_of_mem (hperm.mem_iff.mpr ha)
    obtain ⟨s2, hmv2, hh2, hchain2, hndm, -, -⟩ := move_spec s.heap s.head c1 a c2 hnd hc
    rw [hmv] at hmv2
    have hs : s1 = s2 := by injection hmv2
    subst hs
    refine ⟨a :: (c1 ++ c2), hndm, ?_, List.perm_middle.symm.trans hperm, ?_⟩
    · rw [hh2]
      exact hchain2
    · exact iterate_eq_values _ _ hndm (by rw [hh2]; exact hchain2)

/-- C1 witness: the invariant conclusion instantiated at the concrete state
obtained by prepending 1 and 2 and then removing the handle of 1. -/
theorem claim1_invariants_reachable_witness :
    ∃ c : List Nat, c.Nodup
      ∧ chainB (remove_ptr (prepend (prepend (emptyList (T := Nat)) 1).1 2).1 0).1.heap none
          (remove_ptr (prepend (prepend (emptyList (T := Nat)) 1).1 2).1 0).1.head c = true
      ∧ c.Perm (((prepend (prepend (emptyList (T := Nat)) 1).1 2).2
          :: (prepend (emptyList (T := Nat)) 1).2 :: []).erase 0)
      ∧ iterate (remove_ptr (prepend (prepend (emptyList (T := Nat)) 1).1 2).1 0).1
          = values (remove_ptr (prepend (prepend (emptyList (T := Nat)) 1).1 2).1 0).1.heap c :=
  claim1_invariants_reachable _ _
    (Reaches.remove_step _ _ 0
      (Reaches.prepend_step _ _ 2 (Reaches.prepend_step _ _ 1 Reaches.empty))
      (by decide))

/-- C5: on any list state (well-formed or not), consuming iteration yields
exactly the same value sequence, in the same head-to-tail order, as borrowing
iteration on that state. -/
theorem claim5_into_iterate_eq_iterate (s : OwningList T) :
    into_iterate s = iterate s := by
  rw [iterate, into_iterate, iterItems_eq_intoIterRun]

/-- C6: the concrete scenarios of the test: prepending 1, 2, 3 to the empty
list makes borrowing iteration yield `[3, 2, 1]`; removing via the handle of 2
yields `[3, 1]`; removing via the handles of 3 and then 1 yields `[]`. -/
theorem claim6_test_scenarios :
    iterate (prepend (prepend (prepend (emptyList (T := Nat)) 1).1 2).1 3).1 = [3, 2, 1]
    ∧ iterate (remove_ptr (prepend (prepend (prepend (emptyList (T := Nat)) 1).1 2).1 3).1
        (prepend (prepend (emptyList (T := Nat)) 1).1 2).2).1 = [3, 1]
    ∧ iterate (remove_ptr (remove_ptr
        (prepend (prepend (prepend (emptyList (T := Nat)) 1).1 2).1 3).1
        (prepend (prepend (emptyList (T := Nat)) 1).1 2).2).1
        (prepend (prepend (prepend (emptyList (T := Nat)) 1).1 2).1 3).2).1 = [1]
    ∧ iterate (remove_ptr (remove_ptr (remove_ptr
        (prepend (prepend (prepend (emptyList (T := Nat)) 1).1 2).1 3).1
        (prepend (prepend (emptyList (T := Nat)) 1).1 2).2).1
        (prepend (prepend (prepend (emptyList (T := Nat)) 1).1 2).1 3).2).1
        (prepend (emptyList (T := Nat)) 1).2).1 = [] := by
  decide

/-- C7: calling `move_to_head` with the handle of the current head is a
no-op — the returned list state is the original one, so in particular the
iteration sequence is unchanged. -/
theorem claim7_move_head_noop (s : OwningList T) (a : Nat) (hhd : s.head = some a) :
    move_to_head s a = some s ∧
      ∀ s1, move_to_head s a = some s1 → iterate s1 = iterate s := by
  have hfast : move_to_head s a = some s := by
    rw [move_to_head, if_pos hhd]
  refine ⟨hfast, ?_⟩
  intro s1 h1
  rw [hfast] at h1
  have : s = s1 := by injection h1
  rw [this]

/-- C7 witness: the no-op at the concrete one-element list `[1]` and the
handle of its head. -/
theorem claim7_move_head_noop_witness :
    move_to_head (prepend (emptyList (T := Nat)) 1).1 0
        = some (prepend (emptyList (T := Nat)) 1).1 ∧
      ∀ s1, move_to_head (prepend (emptyList (T := Nat)) 1).1 0 = some s1 →
        iterate s1 = iterate (prepend (emptyList (T := Nat)) 1).1 :=
  claim7_move_head_noop _ 0 (by decide)

/-- C2: on a valid handle `a` (chain `c1 ++ a :: c2`, value `v`),
`move_to_head` succeeds and produces exactly the observable list state that
`remove_ptr` followed by `prepend` of the removed value would produce — the
same value sequence under iteration — while the node count is unchanged
(chain `a :: (c1 ++ c2)` of equal length), the node denoted by the handle is
now the head, and the same handle is still valid and still denotes the node
holding `v`. -/
theorem claim2_move_equiv (h : List (Node T)) (hd : Option Nat) (c1 : List Nat) (a : Nat)
    (c2 : List Nat) (v : T) (hnd : (c1 ++ a :: c2).Nodup)
    (hc : chainB h none hd (c1 ++ a :: c2) = true) (hv : valueAt? h a = some v) :
    ∃ s1, move_to_head ⟨h, hd⟩ a = some s1
      ∧ iterate s1 = iterate (prepend (remove_ptr ⟨h, hd⟩ a).1 v).1
      ∧ s1.head = some a
      ∧ chainB s1.heap none s1.head (a :: (c1 ++ c2)) = true
      ∧ (a :: (c1 ++ c2)).length = (c1 ++ a :: c2).length
      ∧ valueAt? s1.heap a = some v := by
  obtain ⟨s1, hmv, hh1, hchain1, hndm, hvals1, -⟩ := move_spec h hd c1 a c2 hnd hc
  obtain ⟨-, hchain_r, -, -, -, -⟩ := remove_spec h hd c1 a c2 hnd hc
  have hnd_r : (c1 ++ c2).Nodup := (List.nodup_cons.mp (List.nodup_middle.mp hnd)).2
  obtain ⟨hret_p, hhead_p, -, -, hchain_p, hnd_p, hva_p, hvb_p, -⟩ :=
    prepend_spec (remove_ptr ⟨h, hd⟩ a).1.heap (remove_ptr ⟨h, hd⟩ a).1.head
      (c1 ++ c2) v hnd_r hchain_r
  have hchain1h : chainB s1.heap none s1.head (a :: (c1 ++ c2)) = true := by
    rw [hh1]
    exact hchain1
  refine ⟨s1, hmv, ?_, hh1, hchain1h, by simp [Nat.add_assoc], by rw [hvals1 a]; exact hv⟩
  -- both sides iterate to `v :: values h (c1 ++ c2)`
  have hmem_r := chainB_mem_lt _ _ _ _ hchain_r
  have hleft : iterate s1 = v :: values h (c1 ++ c2) := by
    rw [iterate_eq_values s1 (a :: (c1 ++ c2)) hndm hchain1h,
      values_cons_of_some _ a _ v (by rw [hvals1 a]; exact hv)]
    exact congrArg _ (values_congr h s1.heap (c1 ++ c2) (fun y _ => hvals1 y))
  have hright : iterate (prepend (remove_ptr ⟨h, hd⟩ a).1 v).1 = v :: values h (c1 ++ c2) := by
    have hchain_ph : chainB (prepend (remove_ptr ⟨h, hd⟩ a).1 v).1.heap none
        (prepend (remove_ptr ⟨h, hd⟩ a).1 v).1.head
        ((remove_ptr ⟨h, hd⟩ a).1.heap.length :: (c1 ++ c2)) = true := by
      rw [hhead_p]
      exact hchain_p
    rw [iterate_eq_values _ _ hnd_p hchain_ph,
      values_cons_of_some _ _ _ v hvb_p]
    refine congrArg _ ?_
    have step1 : values (prepend (remove_ptr ⟨h, hd⟩ a).1 v).1.heap (c1 ++ c2)
        = values (remove_ptr ⟨h, hd⟩ a).1.heap (c1 ++ c2) :=
      values_congr _ _ _ (fun y hy => hva_p y (Nat.ne_of_lt (hmem_r y hy)))
    have step2 : values (remove_ptr ⟨h, hd⟩ a).1.heap (c1 ++ c2) = values h (c1 ++ c2) :=
      values_congr _ _ _ (fun y _ => remove_to_owned_valueAt ⟨h, hd⟩ a y)
    rw [step1, step2]
  rw [hleft, hright]

/-- C2 witness: `move_to_head` on the middle node of `[3, 2, 1]` (handle 1,
value 2, chain split `[2] ++ 1 :: [0]`). -/
theorem claim2_move_equiv_witness :
    ∃ s1, move_to_head ⟨sampleList3.heap, sampleList3.head⟩ 1 = some s1
      ∧ iterate s1 = iterate (prepend (remove_ptr ⟨sampleList3.heap, sampleList3.head⟩ 1).1 2).1
      ∧ s1.head = some 1
      ∧ chainB s1.heap none s1.head (1 :: ([2] ++ [0])) = true
      ∧ (1 :: ([2] ++ [0])).length = ([2] ++ 1 :: [0]).length
      ∧ valueAt? s1.heap 1 = some 2 :=
  claim2_move_equiv sampleList3.heap sampleList3.head [2] 1 [0] 2
    (by decide) (by decide) (by decide)

/-- C3: `remove_ptr` on a valid handle relinks correctly in every position:
the contracted chain `c1 ++ c2` satisfies the invariant; removing the head
(`c1 = []`) makes the successor, if any, the new head with its back-reference
cleared; for a predecessor `p` (last of `c1`) the forward link is retargeted
at the former successor (`c2.head?`, so `none` when the tail was removed); a
successor's back-reference is retargeted at the predecessor; and removing the
sole node (`c1 = c2 = []`) empties the list. -/
theorem claim3_remove_relinks (h : List (Node T)) (hd : Option Nat) (c1 : List Nat)
    (a : Nat) (c2 : List Nat) (hnd : (c1 ++ a :: c2).Nodup)
    (hc : chainB h none hd (c1 ++ a :: c2) = true) :
    chainB (remove_ptr ⟨h, hd⟩ a).1.heap none (remove_ptr ⟨h, hd⟩ a).1.head
        (c1 ++ c2) = true
    ∧ (c1 = [] → (remove_ptr ⟨h, hd⟩ a).1.head = c2.head?)
    ∧ (c1 = [] → ∀ b, c2.head? = some b → getPrev (remove_ptr ⟨h, hd⟩ a).1.heap b = none)
    ∧ (∀ p, c1.getLast? = some p → getNext (remove_ptr ⟨h, hd⟩ a).1.heap p = c2.head?)
    ∧ (∀ p b, c1.getLast? = some p → c2.head? = some b →
        getPrev (remove_ptr ⟨h, hd⟩ a).1.heap b = some p)
    ∧ (c1 = [] → c2 = [] → (remove_ptr ⟨h, hd⟩ a).1.head = none) := by
  obtain ⟨-, hchain, hheadnil, -, -, -⟩ := remove_spec h hd c1 a c2 hnd hc
  refine ⟨hchain, hheadnil, ?_, ?_, ?_, ?_⟩
  · intro hc1 b hb
    subst hc1
    have hp := chain_head_prev _ c2 [] none _ (by simpa using hchain) b hb
    simpa using hp
  · intro p hp
    exact chain_last_next _ c2 c1 none _ hchain p hp
  · intro p b hp hb
    have hq := chain_head_prev _ c2 c1 none _ hchain b hb
    rw [hp] at hq
    simpa using hq
  · intro hc1 hc2
    subst hc1
    subst hc2
    simpa using hheadnil rfl

/-- C3 witness: removing the middle node of `[3, 2, 1]` (handle 1, chain split
`[2] ++ 1 :: [0]`). -/
theorem claim3_remove_relinks_witness :
    chainB (remove_ptr ⟨sampleList3.heap, sampleList3.head⟩ 1).1.heap none
        (remove_ptr ⟨sampleList3.heap, sampleList3.head⟩ 1).1.head ([2] ++ [0]) = true
    ∧ ([2] = ([] : List Nat) →
        (remove_ptr ⟨sampleList3.heap, sampleList3.head⟩ 1).1.head = [0].head?)
    ∧ ([2] = ([] : List Nat) → ∀ b, [0].head? = some b →
        getPrev (remove_ptr ⟨sampleList3.heap, sampleList3.head⟩ 1).1.heap b = none)
    ∧ (∀ p, [2].getLast? = some p →
        getNext (remove_ptr ⟨sampleList3.heap, sampleList3.head⟩ 1).1.heap p = [0].head?)
    ∧ (∀ p b, [2].getLast? = some p → [0].head? = some b →
        getPrev (remove_ptr ⟨sampleList3.heap, sampleList3.head⟩ 1).1.heap b = some p)
    ∧ ([2] = ([] : List Nat) → [0] = ([] : List Nat) →
        (remove_ptr ⟨sampleList3.heap, sampleList3.head⟩ 1).1.head = none) :=
  claim3_remove_relinks sampleList3.heap sampleList3.head [2] 1 [0] (by decide) (by decide)

/-- C4: `prepend` returns the handle of a freshly allocated node (an address
outside the existing chain) holding the value, whose forward link is the
previous head and whose back-reference is absent; it sets the previous head's
back-reference (when one existed) to the new node, makes the new node the
head, and extends the chain by exactly one node. -/
theorem claim4_prepend (h : List (Node T)) (hd : Option Nat) (c : List Nat) (v : T)
    (hnd : c.Nodup) (hc : chainB h none hd c = true) :
    (prepend ⟨h, hd⟩ v).1.heap[(prepend ⟨h, hd⟩ v).2]? = some ⟨v, hd, none⟩
    ∧ (∀ t, hd = some t → getPrev (prepend ⟨h, hd⟩ v).1.heap t = some (prepend ⟨h, hd⟩ v).2)
    ∧ (prepend ⟨h, hd⟩ v).1.head = some (prepend ⟨h, hd⟩ v).2
    ∧ chainB (prepend ⟨h, hd⟩ v).1.heap none (prepend ⟨h, hd⟩ v).1.head
        ((prepend ⟨h, hd⟩ v).2 :: c) = true
    ∧ ((prepend ⟨h, hd⟩ v).2 :: c).length = c.length + 1
    ∧ (prepend ⟨h, hd⟩ v).2 ∉ c := by
  obtain ⟨hret, hhead, hlook, hprev, hchain, hnd2, -, -, -⟩ := prepend_spec h hd c v hnd hc
  refine ⟨?_, ?_, ?_, ?_, by simp, ?_⟩
  · rw [hret]
    exact hlook
  · intro t ht
    rw [hret]
    exact hprev t ht
  · rw [hret]
    exact hhead
  · rw [hret, hhead]
    exact hchain
  · rw [hret]
    exact (List.nodup_cons.mp hnd2).1

/-- C4 witness: prepending 4 to `[3, 2, 1]` (chain `[2, 1, 0]`). -/
theorem claim4_prepend_witness :
    (prepend ⟨sampleList3.heap, sampleList3.head⟩ 4).1.heap[
        (prepend ⟨sampleList3.heap, sampleList3.head⟩ 4).2]?
        = some ⟨4, sampleList3.head, none⟩
    ∧ (∀ t, sampleList3.head = some t →
        getPrev (prepend ⟨sampleList3.heap, sampleList3.head⟩ 4).1.heap t
          = some (prepend ⟨sampleList3.heap, sampleList3.head⟩ 4).2)
    ∧ (prepend ⟨sampleList3.heap, sampleList3.head⟩ 4).1.head
        = some (prepend ⟨sampleList3.heap, sampleList3.head⟩ 4).2
    ∧ chainB (prepend ⟨sampleList3.heap, sampleList3.head⟩ 4).1.heap none
        (prepend ⟨sampleList3.heap, sampleList3.head⟩ 4).1.head
        ((prepend ⟨sampleList3.heap, sampleList3.head⟩ 4).2 :: [2, 1, 0]) = true
    ∧ ((prepend ⟨sampleList3.heap, sampleList3.head⟩ 4).2 :: [2, 1, 0]).length
        = [2, 1, 0].length + 1
    ∧ (prepend ⟨sampleList3.heap, sampleList3.head⟩ 4).2 ∉ [2, 1, 0] :=
  claim4_prepend sampleList3.heap sampleList3.head [2, 1, 0] 4 (by decide) (by decide)

/-- C8: on a well-formed list with chain `c`, consuming iteration is a finite
sequence that yields exactly the stored values in head-to-tail order (the
values along `c`), each step taking ownership of the node's forward link, and
after full consumption no node remains: the iterator's final owning link is
absent, so the drained list holds no nodes. -/
theorem claim8_consuming_drain (s : OwningList T) (c : List Nat) (hnd : c.Nodup)
    (hc : chainB s.heap none s.head c = true) :
    into_iterate s = values s.heap c
    ∧ (intoIterRun s.heap s.heap.length s.head).2 = none := by
  have hfull := intoIterRun_full s c hnd hc
  constructor
  · rw [into_iterate, hfull]
  · rw [hfull]

/-- C8 witness: draining `[3, 2, 1]` (chain `[2, 1, 0]`). -/
theorem claim8_consuming_drain_witness :
    into_iterate sampleList3 = values sampleList3.heap [2, 1, 0]
    ∧ (intoIterRun sampleList3.heap sampleList3.heap.length sampleList3.head).2 = none :=
  claim8_consuming_drain sampleList3 [2, 1, 0] (by decide) (by decide)

/-- C9: `remove_ptr` on a valid handle returns the box of the removed node,
which still holds the stored value `v` and is fully detached: both its links
are absent, it is no longer on the live chain (no remaining owner), and the
rest of the list is a well-formed chain without it. -/
theorem claim9_remove_returns_value (h : List (Node T)) (hd : Option Nat) (c1 : List Nat)
    (a : Nat) (c2 : List Nat) (v : T) (hnd : (c1 ++ a :: c2).Nodup)
    (hc : chainB h none hd (c1 ++ a :: c2) = true) (hv : valueAt? h a = some v) :
    (remove_ptr ⟨h, hd⟩ a).2 = some a
    ∧ valueAt? (remove_ptr ⟨h, hd⟩ a).1.heap a = some v
    ∧ getNext (remove_ptr ⟨h, hd⟩ a).1.heap a = none
    ∧ getPrev (remove_ptr ⟨h, hd⟩ a).1.heap a = none
    ∧ a ∉ c1 ++ c2
    ∧ chainB (remove_ptr ⟨h, hd⟩ a).1.heap none (remove_ptr ⟨h, hd⟩ a).1.head
        (c1 ++ c2) = true := by
  obtain ⟨hret, hchain, -, -, hdet, -⟩ := remove_spec h hd c1 a c2 hnd hc
  obtain ⟨n, hn, hnv⟩ := Option.map_eq_some'.mp hv
  have hdetA := hdet n hn
  refine ⟨hret, ?_, ?_, ?_, (List.nodup_cons.mp (List.nodup_middle.mp hnd)).1, hchain⟩
  · simp [valueAt?, hdetA, hnv]
  · simp [getNext, hdetA]
  · simp [getPrev, hdetA]

/-- C9 witness: removing the middle node of `[3, 2, 1]` (handle 1, value 2). -/
theorem claim9_remove_returns_value_witness :
    (remove_ptr ⟨sampleList3.heap, sampleList3.head⟩ 1).2 = some 1
    ∧ valueAt? (remove_ptr ⟨sampleList3.heap, sampleList3.head⟩ 1).1.heap 1 = some 2
    ∧ getNext (remove_ptr ⟨sampleList3.heap, sampleList3.head⟩ 1).1.heap 1 = none
    ∧ getPrev (remove_ptr ⟨sampleList3.heap, sampleList3.head⟩ 1).1.heap 1 = none
    ∧ 1 ∉ [2] ++ [0]
    ∧ chainB (remove_ptr ⟨sampleList3.heap, sampleList3.head⟩ 1).1.heap none
        (remove_ptr ⟨sampleList3.heap, sampleList3.head⟩ 1).1.head ([2] ++ [0]) = true :=
  claim9_remove_returns_value sampleList3.heap sampleList3.head [2] 1 [0] 2
    (by decide) (by decide) (by decide)

/-- C10: on a valid handle, `remove_ptr` returns `some` (never `none`), the
returned node has both its forward link and its back-reference absent, and
consequently the `unwrap` of its result inside `move_to_head` cannot panic:
`move_to_head` returns `some`. -/
theorem claim10_remove_ptr_total (h : List (Node T)) (hd : Option Nat) (c1 : List Nat)
    (a : Nat) (c2 : List Nat) (hnd : (c1 ++ a :: c2).Nodup)
    (hc : chainB h none hd (c1 ++ a :: c2) = true) :
    (remove_ptr ⟨h, hd⟩ a).2 ≠ none
    ∧ (∀ r, (remove_ptr ⟨h, hd⟩ a).2 = some r →
        getNext (remove_ptr ⟨h, hd⟩ a).1.heap r = none
        ∧ getPrev (remove_ptr ⟨h, hd⟩ a).1.heap r = none)
    ∧ (move_to_head ⟨h, hd⟩ a).isSome = true := by
  obtain ⟨hret, -, -, -, hdet, -⟩ := remove_spec h hd c1 a c2 hnd hc
  obtain ⟨s1, hmv, -, -, -, -, -⟩ := move_spec h hd c1 a c2 hnd hc
  have hlt : a < h.length := chainB_mem_lt h none hd _ hc a (by simp)
  have hn : h[a]? = some h[a] := List.getElem?_eq_getElem hlt
  have hdetA := hdet h[a] hn
  refine ⟨by rw [hret]; simp, ?_, by rw [hmv]; rfl⟩
  intro r hr
  rw [hret] at hr
  have hra : a = r := by injection hr
  subst hra
  exact ⟨by simp [getNext, hdetA], by simp [getPrev, hdetA]⟩

/-- C10 witness: the middle node of `[3, 2, 1]` (handle 1). -/
theorem claim10_remove_ptr_total_witness :
    (remove_ptr ⟨sampleList3.heap, sampleList3.head⟩ 1).2 ≠ none
    ∧ (∀ r, (remove_ptr ⟨sampleList3.heap, sampleList3.head⟩ 1).2 = some r →
        getNext (remove_ptr ⟨sampleList3.heap, sampleList3.head⟩ 1).1.heap r = none
        ∧ getPrev (remove_ptr ⟨sampleList3.heap, sampleList3.head⟩ 1).1.heap r = none)
    ∧ (move_to_head ⟨sampleList3.heap, sampleList3.head⟩ 1).isSome = true :=
  claim10_remove_ptr_total sampleList3.heap sampleList3.head [2] 1 [0]
    (by decide) (by decide)

end OwningListSpec
